import Mathlib

/-!
Shallow embedding of the event-sourced core of the repository:
the entity store (`VecRepository`), the person domain service
(`PersonService`), the event store processing loop (`EventStore`),
and the location occupancy projection (`LocationOccupancyProjection`),
together with theorems checking the specification's claims.
-/

set_option maxHeartbeats 1000000

deriving instance DecidableEq for Except

namespace SB5S

/-- Modelled from the spec: `Location { x: int32, y: int32 }`, a value type
with equality (the `value_object/location.rs` source file is not present in
the snapshot; no claim depends on coordinate arithmetic, only on equality). -/
structure Location where
  x : Int
  y : Int
deriving DecidableEq

/-- `PersonId(pub u32)` from `domain/entity/person.rs`: a wrapper over a
32-bit unsigned integer, modelled as a natural number kept below `2 ^ 32`
by the call sites that perform the Rust `as u32` cast. -/
structure PersonId where
  val : Nat
deriving DecidableEq

/-- Number of distinct `u32` values; the Rust `as u32` cast is `% u32Card`. -/
def u32Card : Nat := 2 ^ 32

/-- `NumericId::from_value` for `PersonId`: wraps the given value. -/
def PersonId.fromValue (value : Nat) : PersonId := ⟨value⟩

/-- `NumericId::value` for `PersonId`. -/
def PersonId.value (p : PersonId) : Nat := p.val

/-- `Person { id, name, location }` from `domain/entity/person.rs`. -/
structure Person where
  id : PersonId
  name : String
  location : Location
deriving DecidableEq

/-- `PersonEvent` from `domain/event/person_event.rs`. -/
inductive PersonEvent where
  | personCreated (person_id : PersonId) (name : String) (location : Location)
  | personMoved (person_id : PersonId) (from_location : Location) (to_location : Location)
deriving DecidableEq

/-- `DomainEvent` from `domain/event.rs`; currently the only variant wraps
a `PersonEvent`. -/
inductive DomainEvent where
  | person (e : PersonEvent)
deriving DecidableEq

/-! ## Location occupancy projection

`LocationOccupancyProjection` holds `occupancy: HashMap<Location, Vec<PersonId>>`.
The hash map is modelled as an association list with unique keys; hash maps
iterate in an unspecified order, and no claim below depends on the order in
which entries are listed, only on lookups, key sets, sizes and maxima. -/

/-- The `occupancy` map state of `LocationOccupancyProjection`. -/
abbrev Occupancy := List (Location × List PersonId)

/-- `HashMap::get` on the occupancy map. -/
def lookupOcc : Occupancy → Location → Option (List PersonId)
  | [], _ => none
  | (k, v) :: rest, l => if k = l then some v else lookupOcc rest l

/-- `add_person_to_location`: `entry(location).or_insert_with(Vec::new).push(person_id)`. -/
def add_person_to_location : Occupancy → PersonId → Location → Occupancy
  | [], p, l => [(l, [p])]
  | (k, v) :: rest, p, l =>
    if k = l then (k, v ++ [p]) :: rest
    else (k, v) :: add_person_to_location rest p l

/-- `remove_person_from_location`: `retain(|&id| id != person_id)` on the entry
for `location`, removing the entry entirely when the list becomes empty. -/
def remove_person_from_location : Occupancy → PersonId → Location → Occupancy
  | [], _, _ => []
  | (k, v) :: rest, p, l =>
    if k = l then
      if v.filter (fun x => x ≠ p) = [] then rest
      else (k, v.filter (fun x => x ≠ p)) :: rest
    else (k, v) :: remove_person_from_location rest p l

/-- `get_people_at_location`: `occupancy.get(location).cloned().unwrap_or_default()`. -/
def get_people_at_location (occ : Occupancy) (l : Location) : List PersonId :=
  (lookupOcc occ l).getD []

/-- `get_occupied_locations`: `occupancy.keys().cloned().collect()`. -/
def get_occupied_locations (occ : Occupancy) : List Location :=
  occ.map Prod.fst

/-- `get_occupied_location_count`: `occupancy.len()`. -/
def get_occupied_location_count (occ : Occupancy) : Nat :=
  occ.length

/-- The fold inside `Iterator::max_by_key`: a later element replaces the
current best when its key is greater or equal (Rust returns the last maximum). -/
def maxByCountAux : (Location × Nat) → List (Location × Nat) → (Location × Nat)
  | best, [] => best
  | best, x :: rest => maxByCountAux (if x.2 ≥ best.2 then x else best) rest

/-- `get_most_crowded_location`:
`occupancy.iter().map(|(l, people)| (l, people.len())).max_by_key(|(_, count)| count)`. -/
def get_most_crowded_location (occ : Occupancy) : Option (Location × Nat) :=
  match occ.map (fun kv => (kv.1, kv.2.length)) with
  | [] => none
  | x :: rest => some (maxByCountAux x rest)

/-- `LocationOccupancyProjection::apply` from
`infrastructure/projection/location_occupancy.rs`. -/
def applyEvent (occ : Occupancy) (event : DomainEvent) : Occupancy :=
  match event with
  | .person (.personCreated person_id _ location) =>
      add_person_to_location occ person_id location
  | .person (.personMoved person_id from_location to_location) =>
      add_person_to_location
        (remove_person_from_location occ person_id from_location)
        person_id to_location

/-- Folding a whole event sequence into a projection state. -/
def applyAll (occ : Occupancy) (es : List DomainEvent) : Occupancy :=
  es.foldl applyEvent occ

/-! ## Entity store

`VecRepository<ID, T>` from `repo/vec_repository.rs`: a `Vec<Option<T>>`
whose index is the numeric id.  The only `NumericId` instance in the
domain is `PersonId` (a `u32`), so the identifier type is fixed to
`PersonId`, while the entity type stays generic.  Mutating operations
return the updated store paired with the Rust `Result`. -/

/-- `VecRepositoryError` from `repo/vec_repository.rs`. -/
inductive VecRepositoryError where
  | NotFound
  | InvalidIndex
deriving DecidableEq

/-- Reading a slot of the backing vector: `self.data[index]`
(an `Option<T>` entry; out-of-range reads are guarded by a length check
in every caller, and yield `none` here). -/
def nthSlot {T : Type} : List (Option T) → Nat → Option T
  | [], _ => none
  | x :: _, 0 => x
  | _ :: rest, n + 1 => nthSlot rest n

/-- Writing a slot of the backing vector: `self.data[index] = v`. -/
def setSlot {T : Type} : List (Option T) → Nat → Option T → List (Option T)
  | [], _, _ => []
  | _ :: rest, 0, v => v :: rest
  | x :: rest, n + 1, v => x :: setSlot rest n v

/-- `VecRepository<PersonId, T>`: the `data: Vec<Option<T>>` field. -/
structure VecRepository (T : Type) where
  data : List (Option T)

/-- `VecRepository::new()`. -/
def VecRepository.new {T : Type} : VecRepository T := ⟨[]⟩

/-- `VecRepository::get`: bounds check, then clone the live entry. -/
def VecRepository.get {T : Type} (r : VecRepository T) (id : PersonId) :
    Except VecRepositoryError T :=
  let index := id.value
  if index ≥ r.data.length then Except.error VecRepositoryError.NotFound
  else
    match nthSlot r.data index with
    | some entity => Except.ok entity
    | none => Except.error VecRepositoryError.NotFound

/-- `VecRepository::add`: the new id is `ID::from_value(self.data.len() as u32)`;
the `% u32Card` is the `as u32` truncation. -/
def VecRepository.add {T : Type} (r : VecRepository T) (entity : T) :
    VecRepository T × Except VecRepositoryError PersonId :=
  let id := PersonId.fromValue (r.data.length % u32Card)
  (⟨r.data ++ [some entity]⟩, Except.ok id)

/-- `VecRepository::remove`: bounds check, then `self.data[index].take()`. -/
def VecRepository.remove {T : Type} (r : VecRepository T) (id : PersonId) :
    VecRepository T × Except VecRepositoryError T :=
  let index := id.value
  if index ≥ r.data.length then (r, Except.error VecRepositoryError.NotFound)
  else
    match nthSlot r.data index with
    | some entity => (⟨setSlot r.data index none⟩, Except.ok entity)
    | none => (r, Except.error VecRepositoryError.NotFound)

/-- `VecRepository::update`: bounds check, `take()` the old entry, store the
new one only when the old one was live; a dead or absent slot is untouched. -/
def VecRepository.update {T : Type} (r : VecRepository T) (id : PersonId) (entity : T) :
    VecRepository T × Except VecRepositoryError T :=
  let index := id.value
  if index ≥ r.data.length then (r, Except.error VecRepositoryError.NotFound)
  else
    match nthSlot r.data index with
    | some old_entity => (⟨setSlot r.data index (some entity)⟩, Except.ok old_entity)
    | none => (r, Except.error VecRepositoryError.NotFound)

/-- `VecRepository::get_all`: clones of the live entries, in slot order. -/
def VecRepository.get_all {T : Type} (r : VecRepository T) :
    Except VecRepositoryError (List T) :=
  Except.ok (r.data.filterMap (fun opt => opt))

/-- `VecRepository::create`: reserve the next id, run the factory, store the
result. -/
def VecRepository.create {T : Type} (r : VecRepository T) (entity_factory : PersonId → T) :
    VecRepository T × Except VecRepositoryError T :=
  let id := PersonId.fromValue (r.data.length % u32Card)
  let entity := entity_factory id
  (⟨r.data ++ [some entity]⟩, Except.ok entity)

/-! ## Event channel and person service

The domain service holds an `mpsc::Sender<DomainEvent>`.  The channel is
modelled by its observable state: whether the receiving side is still
alive (`connected`), the list of events handed to `publish_event`
(`attempted`) and the sublist the channel actually accepted (`delivered`).
`publish_event` (from `infrastructure/event_store.rs`) ignores a failed
send, so a closed channel only loses the delivery. -/

/-- Observable state of an `mpsc::Sender<DomainEvent>` plus the
`publish_event` call history. -/
structure EventChannel where
  connected : Bool
  attempted : List DomainEvent
  delivered : List DomainEvent
deriving DecidableEq

/-- `publish_event(sender, event)`: `sender.send(event)` with the error
logged and swallowed. -/
def publish_event (ch : EventChannel) (event : DomainEvent) : EventChannel :=
  if ch.connected then
    { ch with attempted := ch.attempted ++ [event], delivered := ch.delivered ++ [event] }
  else
    { ch with attempted := ch.attempted ++ [event] }

/-- `PersonService` from `domain/service/person_service.rs`, with its
repository and event sender. -/
structure PersonService where
  repository : VecRepository Person
  event_sender : EventChannel

/-- `PersonService::create_person`. -/
def PersonService.create_person (s : PersonService) (name : String) (location : Location) :
    PersonService × Except VecRepositoryError Person :=
  match s.repository.create (fun id => ⟨id, name, location⟩) with
  | (repo, Except.ok person) =>
    let event := DomainEvent.person (.personCreated person.id name location)
    ({ repository := repo, event_sender := publish_event s.event_sender event },
      Except.ok person)
  | (repo, Except.error e) =>
    ({ s with repository := repo }, Except.error e)

/-- `PersonService::move_person`. -/
def PersonService.move_person (s : PersonService) (person_id : PersonId)
    (new_location : Location) : PersonService × Except VecRepositoryError Person :=
  match s.repository.get person_id with
  | Except.error e => (s, Except.error e)
  | Except.ok current_person =>
    let old_location := current_person.location
    let updated_person : Person := ⟨person_id, current_person.name, new_location⟩
    match s.repository.update person_id updated_person with
    | (repo, Except.error e) => ({ s with repository := repo }, Except.error e)
    | (repo, Except.ok _) =>
      let event := DomainEvent.person (.personMoved person_id old_location new_location)
      ({ repository := repo, event_sender := publish_event s.event_sender event },
        Except.ok updated_person)

/-- `PersonService::get_person`. -/
def PersonService.get_person (s : PersonService) (person_id : PersonId) :
    Except VecRepositoryError Person :=
  s.repository.get person_id

/-- `PersonService::get_all_persons`. -/
def PersonService.get_all_persons (s : PersonService) :
    Except VecRepositoryError (List Person) :=
  s.repository.get_all

/-! ## Event store processing loop

`EventStore::start_processing` (from `infrastructure/event_store.rs`) loops:
receive an event, push it onto `events`, then
`subscribers.retain(|sender| sender.send(event.clone()).is_ok())`.
A subscriber is a channel sender whose consumer may disappear; this is
modelled by a `fuel` counter set by the environment: `none` means the
consumer never goes away, `some k` means it accepts `k` more events and
then the send fails.  One loop iteration is `processOne`. -/

/-- A registered subscriber feed: remaining accepting capacity of its
consumer, and the events delivered to it so far. -/
structure Subscriber where
  fuel : Option Nat
  feed : List DomainEvent
deriving DecidableEq

/-- `sender.send(event)` for a subscriber feed: `some` of the updated feed
when the consumer still accepts, `none` when the send fails. -/
def Subscriber.send (s : Subscriber) (event : DomainEvent) : Option Subscriber :=
  match s.fuel with
  | none => some ⟨none, s.feed ++ [event]⟩
  | some 0 => none
  | some (k + 1) => some ⟨some k, s.feed ++ [event]⟩

/-- The `events` log and `subscribers` registry of `EventStore`. -/
structure EventStoreState where
  events : List DomainEvent
  subscribers : List Subscriber
deriving DecidableEq

/-- One iteration of the `start_processing` loop body: append the received
event to the log, then fan it out, retaining only subscribers whose send
succeeded. -/
def processOne (st : EventStoreState) (event : DomainEvent) : EventStoreState :=
  ⟨st.events ++ [event],
    st.subscribers.filterMap (fun s => s.send event)⟩

/-- Running the processing loop over a queue of incoming events. -/
def processEvents (st : EventStoreState) (es : List DomainEvent) : EventStoreState :=
  es.foldl processOne st

/-- `EventStore::subscribe`: register a fresh feed (its consumer capacity is
chosen by the environment). -/
def subscribeES (st : EventStoreState) (fuel : Option Nat) : EventStoreState :=
  { st with subscribers := st.subscribers ++ [⟨fuel, []⟩] }

/-- `EventStore::get_all_events`. -/
def get_all_events (st : EventStoreState) : List DomainEvent :=
  st.events

/-- `EventStore::event_count`. -/
def event_count (st : EventStoreState) : Nat :=
  st.events.length

/-! ## Spec-side notions used as hypotheses of the claims

The claims about the projection speak of the location implied by a
person's most recent event, and of consistent event sequences. -/

/-- The location a single event assigns to each person: a creation or a move
overrides the tracked location of its subject and leaves everyone else. -/
def trackEvent (m : PersonId → Option Location) (event : DomainEvent) :
    PersonId → Option Location :=
  match event with
  | .person (.personCreated person_id _ location) =>
      fun q => if q = person_id then some location else m q
  | .person (.personMoved person_id _ to_location) =>
      fun q => if q = person_id then some to_location else m q

/-- The location implied for each person by their most recent event in `es`
(`none` when the person has no event). -/
def locOf (es : List DomainEvent) : PersonId → Option Location :=
  es.foldl trackEvent (fun _ => none)

/-- Consistency of an event sequence relative to tracked locations `m`:
a person is created only when not yet tracked, and a move's `from_location`
is exactly the subject's tracked location. -/
def consistentFromB (m : PersonId → Option Location) : List DomainEvent → Bool
  | [] => true
  | .person (.personCreated person_id _ location) :: rest =>
      (m person_id).isNone &&
        consistentFromB (fun q => if q = person_id then some location else m q) rest
  | .person (.personMoved person_id from_location to_location) :: rest =>
      decide (m person_id = some from_location) &&
        consistentFromB (fun q => if q = person_id then some to_location else m q) rest

/-- Consistency of an event sequence from scratch. -/
def consistentEvents (es : List DomainEvent) : Bool :=
  consistentFromB (fun _ => none) es

/-! ## Entity store call sequences

Claim C2 quantifies over arbitrary interleavings of store calls; an
operation sequence is reified so the number of id allocations can be
counted. -/

/-- One entity store call that can change the state (reads are state-free). -/
inductive RepoOp where
  | addP (p : Person)
  | createP (f : PersonId → Person)
  | removeP (id : PersonId)
  | updateP (id : PersonId) (p : Person)

/-- Execute one store call, keeping only the resulting state. -/
def runOp (r : VecRepository Person) : RepoOp → VecRepository Person
  | .addP p => (r.add p).1
  | .createP f => (r.create f).1
  | .removeP id => (r.remove id).1
  | .updateP id p => (r.update id p).1

/-- Execute a sequence of store calls. -/
def runOps (r : VecRepository Person) (ops : List RepoOp) : VecRepository Person :=
  ops.foldl runOp r

/-- Number of id-allocating calls (`add` or `create`) in a sequence. -/
def numAllocs : List RepoOp → Nat
  | [] => 0
  | .addP _ :: rest => numAllocs rest + 1
  | .createP _ :: rest => numAllocs rest + 1
  | .removeP _ :: rest => numAllocs rest
  | .updateP _ _ :: rest => numAllocs rest

/-! ## Lemmas about the backing vector -/

theorem nthSlot_append_left {T : Type} (l l' : List (Option T)) (i : Nat)
    (h : i < l.length) : nthSlot (l ++ l') i = nthSlot l i := by
  induction l generalizing i with
  | nil => simp at h
  | cons x rest ih =>
    cases i with
    | zero => rfl
    | succ n =>
      simp only [List.cons_append, nthSlot]
      exact ih n (by simpa using Nat.lt_of_succ_lt_succ h)

theorem setSlot_length {T : Type} (l : List (Option T)) (i : Nat) (v : Option T) :
    (setSlot l i v).length = l.length := by
  induction l generalizing i with
  | nil => rfl
  | cons x rest ih =>
    cases i with
    | zero => rfl
    | succ n => simp [setSlot, ih]

theorem nthSlot_setSlot_self {T : Type} (l : List (Option T)) (i : Nat) (v : Option T)
    (h : i < l.length) : nthSlot (setSlot l i v) i = v := by
  induction l generalizing i with
  | nil => simp at h
  | cons x rest ih =>
    cases i with
    | zero => rfl
    | succ n =>
      simp only [setSlot, nthSlot]
      exact ih n (by simpa using Nat.lt_of_succ_lt_succ h)

theorem nthSlot_setSlot_ne {T : Type} (l : List (Option T)) (i j : Nat) (v : Option T)
    (h : i ≠ j) : nthSlot (setSlot l i v) j = nthSlot l j := by
  induction l generalizing i j with
  | nil => rfl
  | cons x rest ih =>
    cases i with
    | zero =>
      cases j with
      | zero => exact absurd rfl h
      | succ m => rfl
    | succ n =>
      cases j with
      | zero => rfl
      | succ m =>
        simp only [setSlot, nthSlot]
        exact ih n m (by omega)

/-! ## Lemmas about the entity store -/

theorem VecRepository.get_ok_iff {T : Type} (r : VecRepository T) (id : PersonId) (p : T) :
    r.get id = Except.ok p ↔ id.val < r.data.length ∧ nthSlot r.data id.val = some p := by
  simp only [VecRepository.get, PersonId.value]
  split
  · next h =>
    constructor
    · intro hc; cases hc
    · intro hc; omega
  · next h =>
    split
    · next q hq =>
      constructor
      · intro hc; cases hc; exact ⟨by omega, hq⟩
      · intro hc
        rw [hq] at hc
        cases hc.2
        rfl
    · next hq =>
      constructor
      · intro hc; cases hc
      · intro hc
        rw [hq] at hc
        cases hc.2

theorem VecRepository.get_error_iff {T : Type} (r : VecRepository T) (id : PersonId)
    (e : VecRepositoryError) :
    r.get id = Except.error e ↔
      e = VecRepositoryError.NotFound ∧
        (id.val ≥ r.data.length ∨ nthSlot r.data id.val = none) := by
  simp only [VecRepository.get, PersonId.value]
  split
  · next h =>
    constructor
    · intro hc; cases hc; exact ⟨rfl, Or.inl h⟩
    · intro hc; rw [hc.1]
  · next h =>
    split
    · next q hq =>
      constructor
      · intro hc; cases hc
      · intro hc
        rcases hc.2 with hbad | hbad
        · omega
        · rw [hq] at hbad; cases hbad
    · next hq =>
      constructor
      · intro hc; cases hc; exact ⟨rfl, Or.inr hq⟩
      · intro hc; rw [hc.1]

theorem VecRepository.update_of_get_ok {T : Type} (r : VecRepository T) (id : PersonId)
    (p q : T) (h : r.get id = Except.ok p) :
    r.update id q = (⟨setSlot r.data id.val (some q)⟩, Except.ok p) := by
  rw [VecRepository.get_ok_iff] at h
  simp only [VecRepository.update, PersonId.value, if_neg (by omega : ¬ id.val ≥ r.data.length), h.2]

theorem VecRepository.update_cases {T : Type} (r : VecRepository T) (id : PersonId) (q : T) :
    r.update id q = (r, Except.error VecRepositoryError.NotFound)
    ∨ ∃ old, nthSlot r.data id.val = some old ∧
        r.update id q = (⟨setSlot r.data id.val (some q)⟩, Except.ok old) := by
  simp only [VecRepository.update, PersonId.value]
  split
  · exact Or.inl rfl
  · split
    · next old hq => exact Or.inr ⟨old, hq, rfl⟩
    · exact Or.inl rfl

theorem VecRepository.update_error_unchanged {T : Type} (r : VecRepository T) (id : PersonId)
    (q : T) (e : VecRepositoryError) (h : (r.update id q).2 = Except.error e) :
    (r.update id q).1 = r := by
  rcases VecRepository.update_cases r id q with hc | ⟨old, _, hc⟩
  · rw [hc]
  · rw [hc] at h; cases h

theorem VecRepository.update_error_iff_get_error {T : Type} (r : VecRepository T)
    (id : PersonId) (q : T) (e : VecRepositoryError) :
    (r.update id q).2 = Except.error e ↔ r.get id = Except.error e := by
  simp only [VecRepository.update, VecRepository.get, PersonId.value]
  split
  · rfl
  · split <;> rfl

theorem VecRepository.remove_length {T : Type} (r : VecRepository T) (id : PersonId) :
    (r.remove id).1.data.length = r.data.length := by
  simp only [VecRepository.remove, PersonId.value]
  split
  · rfl
  · split
    · simp [setSlot_length]
    · rfl

theorem VecRepository.update_length {T : Type} (r : VecRepository T) (id : PersonId) (q : T) :
    (r.update id q).1.data.length = r.data.length := by
  simp only [VecRepository.update, PersonId.value]
  split
  · rfl
  · split
    · simp [setSlot_length]
    · rfl

theorem runOps_length (ops : List RepoOp) (r : VecRepository Person) :
    (runOps r ops).data.length = r.data.length + numAllocs ops := by
  induction ops generalizing r with
  | nil => rfl
  | cons op rest ih =>
    have hrw : runOps r (op :: rest) = runOps (runOp r op) rest := rfl
    rw [hrw, ih]
    cases op with
    | addP p =>
      simp only [numAllocs, runOp, VecRepository.add, List.length_append, List.length_cons,
        List.length_nil]
      omega
    | createP f =>
      simp only [numAllocs, runOp, VecRepository.create, List.length_append, List.length_cons,
        List.length_nil]
      omega
    | removeP id =>
      simp only [numAllocs, runOp, VecRepository.remove_length]
    | updateP id p =>
      simp only [numAllocs, runOp, VecRepository.update_length]

/-! ## Lemmas about the event store processing loop -/

theorem processEvents_events (st : EventStoreState) (es : List DomainEvent) :
    (processEvents st es).events = st.events ++ es := by
  induction es generalizing st with
  | nil => simp [processEvents]
  | cons e rest ih =>
    have hstep : processEvents st (e :: rest) = processEvents (processOne st e) rest := rfl
    rw [hstep, ih]
    simp [processOne]

theorem processEvents_immortal (st : EventStoreState) (es : List DomainEvent)
    (s : Subscriber) (hs : s ∈ st.subscribers) (hf : s.fuel = none) :
    Subscriber.mk none (s.feed ++ es) ∈ (processEvents st es).subscribers := by
  induction es generalizing st s with
  | nil =>
    obtain ⟨fuel, feed⟩ := s
    cases hf
    simpa [processEvents] using hs
  | cons e rest ih =>
    have hstep : processEvents st (e :: rest) = processEvents (processOne st e) rest := rfl
    rw [hstep]
    have hmem : Subscriber.mk none (s.feed ++ [e]) ∈ (processOne st e).subscribers := by
      simp only [processOne]
      refine List.mem_filterMap.mpr ⟨s, hs, ?_⟩
      obtain ⟨fuel, feed⟩ := s
      cases hf
      rfl
    have hres := ih (processOne st e) ⟨none, s.feed ++ [e]⟩ hmem rfl
    simpa using hres

theorem processEvents_finite_fuel (es : List DomainEvent) :
    ∀ (st : EventStoreState) (s : Subscriber) (k : Nat), s ∈ st.subscribers →
      s.fuel = some k → es.length ≤ k →
      Subscriber.mk (some (k - es.length)) (s.feed ++ es)
        ∈ (processEvents st es).subscribers := by
  induction es with
  | nil =>
    intro st s k hs hf _
    obtain ⟨fuel, feed⟩ := s
    cases hf
    simpa [processEvents] using hs
  | cons e rest ih =>
    intro st s k hs hf hlen
    obtain ⟨fuel, feed⟩ := s
    cases hf
    simp only [List.length_cons] at hlen
    obtain ⟨k2, rfl⟩ : ∃ k2, k = k2 + 1 := ⟨k - 1, by omega⟩
    have hmem : Subscriber.mk (some k2) (feed ++ [e]) ∈ (processOne st e).subscribers := by
      simp only [processOne]
      exact List.mem_filterMap.mpr ⟨⟨some (k2 + 1), feed⟩, hs, rfl⟩
    have hres := ih (processOne st e) ⟨some k2, feed ++ [e]⟩ k2 hmem rfl (by omega)
    have harith : k2 + 1 - (rest.length + 1) = k2 - rest.length := by omega
    simpa [harith] using hres

theorem Subscriber.send_eq_none_iff (s : Subscriber) (e : DomainEvent) :
    s.send e = none ↔ s.fuel = some 0 := by
  obtain ⟨fuel, feed⟩ := s
  cases fuel with
  | none => simp [Subscriber.send]
  | some k => cases k <;> simp [Subscriber.send]

/-! ## Lemmas about the occupancy map -/

/-- The occupancy map has at most one entry per location. -/
def keysNodup (occ : Occupancy) : Prop := (occ.map Prod.fst).Nodup

/-- No entry of the occupancy map holds an empty occupant list. -/
def noEmpty (occ : Occupancy) : Prop := ∀ kv ∈ occ, kv.2 ≠ []

/-- Well-formedness of an occupancy map state. -/
def OccWf (occ : Occupancy) : Prop := keysNodup occ ∧ noEmpty occ

theorem lookupOcc_eq_none_of_not_mem (occ : Occupancy) (l : Location)
    (h : l ∉ occ.map Prod.fst) : lookupOcc occ l = none := by
  induction occ with
  | nil => rfl
  | cons kv rest ih =>
    obtain ⟨k, v⟩ := kv
    simp only [List.map_cons, List.mem_cons] at h
    push_neg at h
    simp only [lookupOcc, if_neg (fun hc : k = l => h.1 hc.symm)]
    exact ih h.2

theorem lookupOcc_isSome_of_mem (occ : Occupancy) (l : Location)
    (h : l ∈ occ.map Prod.fst) : (lookupOcc occ l).isSome := by
  induction occ with
  | nil => simp at h
  | cons kv rest ih =>
    obtain ⟨k, v⟩ := kv
    by_cases hkl : k = l
    · simp [lookupOcc, hkl]
    · simp only [List.map_cons, List.mem_cons] at h
      rcases h with h | h
    -- the key is not l, so l comes from the tail
      · exact absurd h.symm hkl
      · simpa [lookupOcc, hkl] using ih h

theorem mem_of_lookupOcc (occ : Occupancy) (l : Location) (v : List PersonId)
    (h : lookupOcc occ l = some v) : (l, v) ∈ occ := by
  induction occ with
  | nil => cases h
  | cons kv rest ih =>
    obtain ⟨k, v'⟩ := kv
    by_cases hkl : k = l
    · subst hkl
      simp only [lookupOcc, if_pos rfl] at h
      cases h
      exact List.mem_cons_self _ _
    · simp only [lookupOcc, if_neg hkl] at h
      exact List.mem_cons_of_mem _ (ih h)

theorem lookupOcc_of_mem_nodup (occ : Occupancy) (l : Location) (v : List PersonId)
    (hnd : keysNodup occ) (h : (l, v) ∈ occ) : lookupOcc occ l = some v := by
  induction occ with
  | nil => simp at h
  | cons kv rest ih =>
    obtain ⟨k, v'⟩ := kv
    simp only [keysNodup, List.map_cons, List.nodup_cons] at hnd
    rcases List.mem_cons.mp h with heq | hmem
    · cases heq
      simp [lookupOcc]
    · have hkl : k ≠ l := by
        intro hk
        subst hk
        exact hnd.1 (List.mem_map.mpr ⟨(k, v), hmem, rfl⟩)
      simp only [lookupOcc, if_neg hkl]
      exact ih hnd.2 hmem

theorem lookupOcc_add_self (occ : Occupancy) (p : PersonId) (l : Location) :
    lookupOcc (add_person_to_location occ p l) l
      = some (get_people_at_location occ l ++ [p]) := by
  induction occ with
  | nil => simp [add_person_to_location, lookupOcc, get_people_at_location]
  | cons kv rest ih =>
    obtain ⟨k, v⟩ := kv
    by_cases hkl : k = l
    · subst hkl
      simp [add_person_to_location, lookupOcc, get_people_at_location]
    · simp only [add_person_to_location, if_neg hkl, lookupOcc, if_neg hkl]
      simpa [get_people_at_location, lookupOcc, hkl] using ih

theorem lookupOcc_add_ne (occ : Occupancy) (p : PersonId) (l l' : Location)
    (h : l' ≠ l) : lookupOcc (add_person_to_location occ p l) l' = lookupOcc occ l' := by
  induction occ with
  | nil =>
    simp only [add_person_to_location, lookupOcc, if_neg (Ne.symm h)]
  | cons kv rest ih =>
    obtain ⟨k, v⟩ := kv
    by_cases hkl : k = l
    · subst hkl
      simp only [add_person_to_location, if_pos rfl, lookupOcc,
        if_neg (Ne.symm h : ¬ k = l')]
    · simp only [add_person_to_location, if_neg hkl, lookupOcc]
      by_cases hkl' : k = l'
      · simp only [if_pos hkl']
      · simp only [if_neg hkl', ih]

theorem lookupOcc_remove_ne (occ : Occupancy) (p : PersonId) (l l' : Location)
    (h : l' ≠ l) : lookupOcc (remove_person_from_location occ p l) l' = lookupOcc occ l' := by
  induction occ with
  | nil => rfl
  | cons kv rest ih =>
    obtain ⟨k, v⟩ := kv
    simp only [remove_person_from_location]
    split
    · next hkl =>
      subst hkl
      have hkl' : ¬ k = l' := Ne.symm h
      split
      · simp only [lookupOcc, if_neg hkl']
      · simp only [lookupOcc, if_neg hkl']
    · next hkl =>
      simp only [lookupOcc]
      by_cases hkl' : k = l'
      · simp only [if_pos hkl']
      · simp only [if_neg hkl', ih]

theorem people_at_remove_self (occ : Occupancy) (p : PersonId) (l : Location)
    (hnd : keysNodup occ) :
    get_people_at_location (remove_person_from_location occ p l) l
      = (get_people_at_location occ l).filter (fun x => x ≠ p) := by
  induction occ with
  | nil => rfl
  | cons kv rest ih =>
    obtain ⟨k, v⟩ := kv
    simp only [keysNodup, List.map_cons, List.nodup_cons] at hnd
    simp only [remove_person_from_location]
    split
    · next hkl =>
      subst hkl
      have hrest : lookupOcc rest k = none :=
        lookupOcc_eq_none_of_not_mem rest k hnd.1
      split
      · next hkept =>
        have hall : ∀ a ∈ v, a = p := by
          intro a ha
          by_contra hne
          have hdec : (fun x => decide (x ≠ p)) a = true := by simpa using hne
          have hmem : a ∈ v.filter (fun x => x ≠ p) := List.mem_filter.mpr ⟨ha, hdec⟩
          rw [hkept] at hmem
          exact absurd hmem (List.not_mem_nil a)
        simp [get_people_at_location, lookupOcc, hrest, hkept]
        exact hall
      · next hkept =>
        simp [get_people_at_location, lookupOcc]
    · next hkl =>
      simp only [get_people_at_location, lookupOcc, if_neg hkl]
      simpa [get_people_at_location] using ih hnd.2

theorem people_at_add_self (occ : Occupancy) (p : PersonId) (l : Location) :
    get_people_at_location (add_person_to_location occ p l) l
      = get_people_at_location occ l ++ [p] := by
  simp [get_people_at_location, lookupOcc_add_self occ p l]

theorem people_at_add_ne (occ : Occupancy) (p : PersonId) (l l' : Location) (h : l' ≠ l) :
    get_people_at_location (add_person_to_location occ p l) l'
      = get_people_at_location occ l' := by
  simp [get_people_at_location, lookupOcc_add_ne occ p l l' h]

theorem people_at_remove_ne (occ : Occupancy) (p : PersonId) (l l' : Location) (h : l' ≠ l) :
    get_people_at_location (remove_person_from_location occ p l) l'
      = get_people_at_location occ l' := by
  simp [get_people_at_location, lookupOcc_remove_ne occ p l l' h]

theorem keys_add_mem (occ : Occupancy) (p : PersonId) (l : Location)
    (h : l ∈ occ.map Prod.fst) :
    (add_person_to_location occ p l).map Prod.fst = occ.map Prod.fst := by
  induction occ with
  | nil => simp at h
  | cons kv rest ih =>
    obtain ⟨k, v⟩ := kv
    by_cases hkl : k = l
    · subst hkl
      simp [add_person_to_location]
    · simp only [List.map_cons, List.mem_cons] at h
      rcases h with h | h
      · exact absurd h.symm hkl
      · simp [add_person_to_location, if_neg hkl, ih h]

theorem keys_add_not_mem (occ : Occupancy) (p : PersonId) (l : Location)
    (h : l ∉ occ.map Prod.fst) :
    (add_person_to_location occ p l).map Prod.fst = occ.map Prod.fst ++ [l] := by
  induction occ with
  | nil => simp [add_person_to_location]
  | cons kv rest ih =>
    obtain ⟨k, v⟩ := kv
    simp only [List.map_cons, List.mem_cons] at h
    push_neg at h
    have hkl : ¬ k = l := fun hc => h.1 hc.symm
    simp [add_person_to_location, if_neg hkl, ih h.2]

theorem keys_remove_sublist (occ : Occupancy) (p : PersonId) (l : Location) :
    ((remove_person_from_location occ p l).map Prod.fst).Sublist (occ.map Prod.fst) := by
  induction occ with
  | nil => simp [remove_person_from_location]
  | cons kv rest ih =>
    obtain ⟨k, v⟩ := kv
    simp only [remove_person_from_location]
    split
    · split
      · exact List.sublist_cons_self _ _
      · simp only [List.map_cons]
        exact List.Sublist.cons₂ _ (List.Sublist.refl _)
    · simpa using ih.cons₂ k

theorem keysNodup_add (occ : Occupancy) (p : PersonId) (l : Location)
    (h : keysNodup occ) : keysNodup (add_person_to_location occ p l) := by
  by_cases hmem : l ∈ occ.map Prod.fst
  · unfold keysNodup
    rw [keys_add_mem occ p l hmem]
    exact h
  · unfold keysNodup
    rw [keys_add_not_mem occ p l hmem]
    refine List.Nodup.append h (List.nodup_singleton l) ?_
    intro a ha hb
    simp only [List.mem_singleton] at hb
    subst hb
    exact hmem ha

theorem keysNodup_remove (occ : Occupancy) (p : PersonId) (l : Location)
    (h : keysNodup occ) : keysNodup (remove_person_from_location occ p l) :=
  (keys_remove_sublist occ p l).nodup h

theorem noEmpty_add (occ : Occupancy) (p : PersonId) (l : Location)
    (h : noEmpty occ) : noEmpty (add_person_to_location occ p l) := by
  induction occ with
  | nil =>
    intro kv hkv
    simp only [add_person_to_location, List.mem_singleton] at hkv
    subst hkv
    simp
  | cons kv0 rest ih =>
    obtain ⟨k, v⟩ := kv0
    have hrest : noEmpty rest := fun kv hkv => h kv (List.mem_cons_of_mem _ hkv)
    simp only [add_person_to_location]
    split
    · intro kv hkv
      rcases List.mem_cons.mp hkv with heq | hmem
      · subst heq; simp
      · exact h kv (List.mem_cons_of_mem _ hmem)
    · intro kv hkv
      rcases List.mem_cons.mp hkv with heq | hmem
      · subst heq
        exact h (k, v) (List.mem_cons_self _ _)
      · exact ih hrest kv hmem

theorem noEmpty_remove (occ : Occupancy) (p : PersonId) (l : Location)
    (h : noEmpty occ) : noEmpty (remove_person_from_location occ p l) := by
  induction occ with
  | nil => exact fun kv hkv => absurd hkv (by simp [remove_person_from_location])
  | cons kv0 rest ih =>
    obtain ⟨k, v⟩ := kv0
    have hrest : noEmpty rest := fun kv hkv => h kv (List.mem_cons_of_mem _ hkv)
    simp only [remove_person_from_location]
    split
    · split
      · exact hrest
      · next hkept =>
        intro kv hkv
        rcases List.mem_cons.mp hkv with heq | hmem
        · subst heq; exact hkept
        · exact hrest kv hmem
    · intro kv hkv
      rcases List.mem_cons.mp hkv with heq | hmem
      · subst heq
        exact h (k, v) (List.mem_cons_self _ _)
      · exact ih hrest kv hmem

theorem occWf_empty : OccWf [] :=
  ⟨List.nodup_nil, fun kv hkv => absurd hkv (List.not_mem_nil kv)⟩

theorem occWf_applyEvent (occ : Occupancy) (event : DomainEvent) (h : OccWf occ) :
    OccWf (applyEvent occ event) := by
  obtain ⟨hnd, hne⟩ := h
  cases event with
  | person pe =>
    cases pe with
    | personCreated person_id name location =>
      exact ⟨keysNodup_add occ person_id location hnd,
        noEmpty_add occ person_id location hne⟩
    | personMoved person_id from_location to_location =>
      refine ⟨keysNodup_add _ person_id to_location
          (keysNodup_remove occ person_id from_location hnd),
        noEmpty_add _ person_id to_location
          (noEmpty_remove occ person_id from_location hne)⟩

theorem occWf_applyAll (occ : Occupancy) (es : List DomainEvent) (h : OccWf occ) :
    OccWf (applyAll occ es) := by
  induction es generalizing occ with
  | nil => exact h
  | cons e rest ih => exact ih (applyEvent occ e) (occWf_applyEvent occ e h)

/-! ## The projection correctness invariant -/

/-- The correspondence between a projection state and tracked locations:
the people listed at a location are exactly those whose tracked location
is that location. -/
def OccInv (occ : Occupancy) (m : PersonId → Option Location) : Prop :=
  ∀ p l, p ∈ get_people_at_location occ l ↔ m p = some l

theorem occInv_congr (occ : Occupancy) (m m' : PersonId → Option Location)
    (h : OccInv occ m) (heq : ∀ q, m q = m' q) : OccInv occ m' :=
  fun p l => (h p l).trans (by rw [heq p])

theorem occInv_empty : OccInv [] (fun _ => none) := by
  intro p l
  simp [get_people_at_location, lookupOcc]

theorem occInv_add (occ : Occupancy) (m : PersonId → Option Location)
    (p0 : PersonId) (l0 : Location) (hinv : OccInv occ m) (hnone : m p0 = none) :
    OccInv (add_person_to_location occ p0 l0)
      (fun q => if q = p0 then some l0 else m q) := by
  intro p l
  by_cases hl : l = l0
  · subst hl
    rw [people_at_add_self]
    simp only [List.mem_append, List.mem_singleton]
    by_cases hp : p = p0
    · subst hp
      simp
    · simp [hp, hinv p l]
  · rw [people_at_add_ne occ p0 l0 l (by exact hl)]
    by_cases hp : p = p0
    · subst hp
      have hval : (fun q => if q = p then some l0 else m q) p = some l0 := by simp
      rw [hval]
      constructor
      · intro hmem
        rw [hinv p l, hnone] at hmem
        cases hmem
      · intro hmem
        cases hmem
        exact absurd rfl hl
    · simp [hp, hinv p l]

theorem occInv_remove (occ : Occupancy) (m : PersonId → Option Location)
    (p0 : PersonId) (l0 : Location) (hnd : keysNodup occ)
    (hinv : OccInv occ m) (hsome : m p0 = some l0) :
    OccInv (remove_person_from_location occ p0 l0)
      (fun q => if q = p0 then none else m q) := by
  intro p l
  by_cases hl : l = l0
  · subst hl
    rw [people_at_remove_self occ p0 l (by exact hnd)]
    by_cases hp : p = p0
    · subst hp
      simp [List.mem_filter]
    · simp [List.mem_filter, hp, hinv p l]
  · rw [people_at_remove_ne occ p0 l0 l (by exact hl)]
    by_cases hp : p = p0
    · subst hp
      have hval : (fun q => if q = p then (none : Option Location) else m q) p = none := by simp
      rw [hval]
      constructor
      · intro hmem
        have hml := (hinv p l).mp hmem
        rw [hsome] at hml
        cases hml
        exact absurd rfl hl
      · intro hmem
        cases hmem
    · simp [hp, hinv p l]

theorem occInv_fold (es : List DomainEvent) :
    ∀ (occ : Occupancy) (m : PersonId → Option Location),
      OccWf occ → OccInv occ m → consistentFromB m es = true →
        OccWf (applyAll occ es) ∧ OccInv (applyAll occ es) (es.foldl trackEvent m) := by
  induction es with
  | nil =>
    intro occ m hwf hinv _
    exact ⟨hwf, hinv⟩
  | cons e rest ih =>
    intro occ m hwf hinv hc
    cases e with
    | person pe =>
      cases pe with
      | personCreated pid name loc =>
        simp only [consistentFromB, Bool.and_eq_true] at hc
        have hnone : m pid = none := by
          cases hm : m pid
          · rfl
          · rw [hm] at hc; cases hc.1
        have hinv2 := occInv_add occ m pid loc hinv hnone
        have hwf2 := occWf_applyEvent occ (.person (.personCreated pid name loc)) hwf
        exact ih (applyEvent occ (.person (.personCreated pid name loc)))
          (fun q => if q = pid then some loc else m q) hwf2 hinv2 hc.2
      | personMoved pid frm tl =>
        simp only [consistentFromB, Bool.and_eq_true, decide_eq_true_eq] at hc
        have hinvMid := occInv_remove occ m pid frm hwf.1 hinv hc.1
        have hinvAdd := occInv_add (remove_person_from_location occ pid frm)
          (fun q => if q = pid then none else m q) pid tl hinvMid (by simp)
        have hinv2 := occInv_congr _ _ (fun q => if q = pid then some tl else m q)
          hinvAdd (fun q => by by_cases hq : q = pid <;> simp [hq])
        have hwf2 := occWf_applyEvent occ (.person (.personMoved pid frm tl)) hwf
        exact ih (applyEvent occ (.person (.personMoved pid frm tl)))
          (fun q => if q = pid then some tl else m q) hwf2 hinv2 hc.2

/-! ## Derived facts about the projection queries -/

theorem people_at_ne_nil_of_mem_keys (occ : Occupancy) (hwf : OccWf occ) (L : Location)
    (hL : L ∈ get_occupied_locations occ) : get_people_at_location occ L ≠ [] := by
  have hsome := lookupOcc_isSome_of_mem occ L hL
  rcases ho : lookupOcc occ L with _ | v
  · rw [ho] at hsome; cases hsome
  · intro hempty
    simp only [get_people_at_location, ho, Option.getD_some] at hempty
    exact hwf.2 (L, v) (mem_of_lookupOcc occ L v ho) hempty

theorem mem_keys_of_people_at_ne_nil (occ : Occupancy) (L : Location)
    (h : get_people_at_location occ L ≠ []) : L ∈ get_occupied_locations occ := by
  rcases ho : lookupOcc occ L with _ | v
  · exact absurd (by simp [get_people_at_location, ho]) h
  · have hmem := mem_of_lookupOcc occ L v ho
    exact List.mem_map.mpr ⟨(L, v), hmem, rfl⟩

theorem maxByCountAux_mem (best : Location × Nat) (l : List (Location × Nat)) :
    maxByCountAux best l = best ∨ maxByCountAux best l ∈ l := by
  induction l generalizing best with
  | nil => exact Or.inl rfl
  | cons x rest ih =>
    simp only [maxByCountAux]
    rcases ih (if x.2 ≥ best.2 then x else best) with h | h
    · rw [h]
      by_cases hx : x.2 ≥ best.2
      · rw [if_pos hx]
        exact Or.inr (List.mem_cons_self _ _)
      · rw [if_neg hx]
        exact Or.inl rfl
    · exact Or.inr (List.mem_cons_of_mem _ h)

theorem maxByCountAux_le (best : Location × Nat) (l : List (Location × Nat)) :
    best.2 ≤ (maxByCountAux best l).2 ∧ ∀ y ∈ l, y.2 ≤ (maxByCountAux best l).2 := by
  induction l generalizing best with
  | nil => exact ⟨Nat.le_refl _, fun y hy => absurd hy (List.not_mem_nil y)⟩
  | cons x rest ih =>
    simp only [maxByCountAux]
    obtain ⟨h1, h2⟩ := ih (if x.2 ≥ best.2 then x else best)
    have hb : best.2 ≤ (if x.2 ≥ best.2 then x else best).2 := by
      by_cases hx : x.2 ≥ best.2
      · rw [if_pos hx]; exact hx
      · rw [if_neg hx]
    have hxle : x.2 ≤ (if x.2 ≥ best.2 then x else best).2 := by
      by_cases hx : x.2 ≥ best.2
      · rw [if_pos hx]
      · rw [if_neg hx]; omega
    refine ⟨Nat.le_trans hb h1, ?_⟩
    intro y hy
    rcases List.mem_cons.mp hy with hy | hy
    · subst hy
      exact Nat.le_trans hxle h1
    · exact h2 y hy

theorem get_most_crowded_none_iff (occ : Occupancy) :
    get_most_crowded_location occ = none ↔ occ = [] := by
  cases occ with
  | nil => simp [get_most_crowded_location]
  | cons kv rest => simp [get_most_crowded_location]

theorem get_most_crowded_spec (occ : Occupancy) (L : Location) (c : Nat)
    (h : get_most_crowded_location occ = some (L, c)) :
    (∃ ps, (L, ps) ∈ occ ∧ ps.length = c) ∧ ∀ kv ∈ occ, kv.2.length ≤ c := by
  cases occ with
  | nil => cases h
  | cons kv0 rest =>
    simp only [get_most_crowded_location, List.map_cons, Option.some.injEq] at h
    constructor
    · have hmem := maxByCountAux_mem (kv0.1, kv0.2.length)
        (rest.map (fun kv => (kv.1, kv.2.length)))
      rw [h] at hmem
      rcases hmem with heq | hmem
      · injection heq with h1 h2
        subst h1
        subst h2
        exact ⟨kv0.2, List.mem_cons_self _ _, rfl⟩
      · obtain ⟨kv, hkv, heq⟩ := List.mem_map.mp hmem
        injection heq with h1 h2
        subst h1
        subst h2
        exact ⟨kv.2, List.mem_cons_of_mem _ hkv, rfl⟩
    · intro kv hkv
      obtain hle := maxByCountAux_le (kv0.1, kv0.2.length)
        (rest.map (fun x => (x.1, x.2.length)))
      rcases List.mem_cons.mp hkv with heq | hmem
      · subst heq
        have hbound := hle.1
        rw [h] at hbound
        exact hbound
      · have hbound := hle.2 (kv.1, kv.2.length) (List.mem_map.mpr ⟨kv, hmem, rfl⟩)
        rw [h] at hbound
        exact hbound

/-! ## Derived facts about the service and the event channel -/

theorem publish_event_attempted (ch : EventChannel) (event : DomainEvent) :
    (publish_event ch event).attempted = ch.attempted ++ [event] := by
  by_cases h : ch.connected <;> simp [publish_event, h]

theorem publish_event_delivered_connected (ch : EventChannel) (event : DomainEvent)
    (h : ch.connected = true) :
    (publish_event ch event).delivered = ch.delivered ++ [event] := by
  simp [publish_event, h]

theorem publish_event_delivered_closed (ch : EventChannel) (event : DomainEvent)
    (h : ch.connected = false) :
    (publish_event ch event).delivered = ch.delivered := by
  simp [publish_event, h]

theorem get_mk_setSlot_self {T : Type} (data : List (Option T)) (pid : PersonId) (q : T)
    (hlt : pid.val < data.length) :
    (VecRepository.mk (setSlot data pid.val (some q))).get pid = Except.ok q := by
  rw [VecRepository.get_ok_iff]
  exact ⟨by rw [setSlot_length]; exact hlt,
    nthSlot_setSlot_self data pid.val (some q) hlt⟩

theorem get_mk_setSlot_ne {T : Type} (data : List (Option T)) (i : Nat) (v : Option T)
    (pid2 : PersonId) (h : pid2.val ≠ i) :
    (VecRepository.mk (setSlot data i v)).get pid2 = (VecRepository.mk data).get pid2 := by
  simp only [VecRepository.get, PersonId.value, setSlot_length]
  rw [nthSlot_setSlot_ne data i pid2.val v (fun hc => h hc.symm)]

theorem move_ok_helper (s : PersonService) (p : Person) (pid : PersonId) (L : Location)
    (h : s.repository.get pid = Except.ok p) :
    s.move_person pid L
      = ({ repository := ⟨setSlot s.repository.data pid.val (some ⟨pid, p.name, L⟩)⟩,
           event_sender := publish_event s.event_sender
               (DomainEvent.person (.personMoved pid p.location L)) },
         Except.ok ⟨pid, p.name, L⟩) := by
  have hupd := VecRepository.update_of_get_ok s.repository pid p ⟨pid, p.name, L⟩ h
  simp only [PersonService.move_person, h, hupd]

theorem create_person_eq (s : PersonService) (name : String) (loc : Location) :
    s.create_person name loc
      = ({ repository := ⟨s.repository.data
              ++ [some ⟨PersonId.fromValue (s.repository.data.length % u32Card), name, loc⟩]⟩,
           event_sender := publish_event s.event_sender
               (DomainEvent.person (.personCreated
                 (PersonId.fromValue (s.repository.data.length % u32Card)) name loc)) },
         Except.ok ⟨PersonId.fromValue (s.repository.data.length % u32Card), name, loc⟩) :=
  rfl

theorem VecRepository.remove_error_notfound {T : Type} (r : VecRepository T)
    (pid : PersonId) (e : VecRepositoryError)
    (h : (r.remove pid).2 = Except.error e) : e = VecRepositoryError.NotFound := by
  simp only [VecRepository.remove, PersonId.value] at h
  split at h
  · cases h; rfl
  · split at h
    · cases h
    · cases h; rfl

theorem numAllocs_replicate_add (n : Nat) (p : Person) :
    numAllocs (List.replicate n (RepoOp.addP p)) = n := by
  induction n with
  | zero => rfl
  | succ k ih => simp [List.replicate, numAllocs, ih]

/-! ## Concrete sample data for the witnesses -/

/-- Sample location (10, 20). -/
def locA : Location := ⟨10, 20⟩

/-- Sample location (30, 40). -/
def locB : Location := ⟨30, 40⟩

/-- Sample location (50, 60). -/
def locC : Location := ⟨50, 60⟩

/-- Sample person. -/
def alice : Person := ⟨⟨0⟩, "Alice", locA⟩

/-- The spec's end-to-end scenario: Alice and Bob created at (10,20),
then Alice moves to (30,40). -/
def esScenario : List DomainEvent :=
  [ .person (.personCreated ⟨0⟩ "Alice" locA),
    .person (.personCreated ⟨1⟩ "Bob" locA),
    .person (.personMoved ⟨0⟩ locA locB) ]

/-- Events building the occupancy counts A:1, B:3, C:2. -/
def esCrowd : List DomainEvent :=
  [ .person (.personCreated ⟨1⟩ "p1" locA),
    .person (.personCreated ⟨2⟩ "p2" locB),
    .person (.personCreated ⟨3⟩ "p3" locB),
    .person (.personCreated ⟨4⟩ "p4" locB),
    .person (.personCreated ⟨5⟩ "p5" locC),
    .person (.personCreated ⟨6⟩ "p6" locC) ]

/-- A service holding one person with id 0 and an open event channel. -/
def svcOne : PersonService :=
  ⟨⟨[some ⟨⟨0⟩, "Stationary", locA⟩]⟩, ⟨true, [], []⟩⟩

/-- A service holding one person with id 0 whose event channel consumer
is gone. -/
def svcClosed : PersonService :=
  ⟨⟨[some ⟨⟨0⟩, "Undelivered", locA⟩]⟩, ⟨false, [], []⟩⟩

/-! ## The claims -/

/-- C1: folding any consistent sequence of PersonCreated/PersonMoved events
into a fresh location occupancy projection yields a state in which
`get_people_at_location L` contains exactly the ids whose most recent event
places them at `L`, and every location still present in the map has at
least one occupant (the entry vanishes with its last occupant). -/
theorem projection_tracks_latest_locations (es : List DomainEvent)
    (h : consistentEvents es = true) :
    (∀ (L : Location) (p : PersonId),
        p ∈ get_people_at_location (applyAll [] es) L ↔ locOf es p = some L)
    ∧ ∀ L ∈ get_occupied_locations (applyAll [] es),
        get_people_at_location (applyAll [] es) L ≠ [] := by
  obtain ⟨hwf, hinv⟩ := occInv_fold es [] (fun _ => none) occWf_empty occInv_empty h
  exact ⟨fun L p => hinv p L,
    fun L hL => people_at_ne_nil_of_mem_keys (applyAll [] es) hwf L hL⟩

/-- C1 witness: on the spec's end-to-end scenario the projection places
Alice (id 0) at (30,40), as her most recent event does. -/
theorem projection_tracks_latest_locations_witness :
    PersonId.mk 0 ∈ get_people_at_location (applyAll [] esScenario) locB :=
  ((projection_tracks_latest_locations esScenario (by decide)).1 locB ⟨0⟩).mpr (by decide)

/-- C2 counterexample: the id is the store length cast to `u32`, so the
allocation call number 2^32 (counting from 0, after 2^32 adds) returns id 0,
not 2^32 — the claim "the n-th call returns exactly n, and a removed id is
never handed out again" fails at n = 2^32. -/
theorem sequential_ids_wrap_at_u32 :
    ((runOps VecRepository.new (List.replicate u32Card (RepoOp.addP alice))).add alice).2
      = Except.ok (PersonId.mk 0)
    ∧ PersonId.mk 0 ≠ PersonId.mk u32Card := by
  constructor
  · have hlen : (runOps VecRepository.new
        (List.replicate u32Card (RepoOp.addP alice))).data.length = u32Card := by
      rw [runOps_length, numAllocs_replicate_add]
      show 0 + u32Card = u32Card
      exact Nat.zero_add u32Card
    show Except.ok (PersonId.fromValue
        ((runOps VecRepository.new
          (List.replicate u32Card (RepoOp.addP alice))).data.length % u32Card))
      = Except.ok (PersonId.mk 0)
    rw [hlen, Nat.mod_self]
    rfl
  · intro hc
    have hval := congrArg PersonId.val hc
    simp only [u32Card] at hval
    exact absurd hval (by norm_num)

/-- C2 amended: as long as fewer than 2^32 ids have been allocated, the
next add or create — after any interleaving of adds, creates, removals and
updates — returns exactly the number of prior allocating calls as its id,
so removals never cause an id to be handed out twice below 2^32. -/
theorem sequential_ids_below_u32 (ops : List RepoOp) (p : Person)
    (f : PersonId → Person) (h : numAllocs ops < u32Card) :
    ((runOps VecRepository.new ops).add p).2 = Except.ok (PersonId.mk (numAllocs ops))
    ∧ ((runOps VecRepository.new ops).create f).2
        = Except.ok (f (PersonId.mk (numAllocs ops))) := by
  have hlen : (runOps VecRepository.new ops).data.length = numAllocs ops := by
    rw [runOps_length]
    simp [VecRepository.new]
  constructor
  · simp [VecRepository.add, hlen, PersonId.fromValue, Nat.mod_eq_of_lt h]
  · simp [VecRepository.create, hlen, PersonId.fromValue, Nat.mod_eq_of_lt h]

/-- C2 witness: create person with id 0, remove it, and the next create
still returns id 1, never 0 again. -/
theorem sequential_ids_below_u32_witness :
    ((runOps VecRepository.new
        [RepoOp.createP (fun id => ⟨id, "A", locA⟩), RepoOp.removeP ⟨0⟩]).create
          (fun id => ⟨id, "B", locB⟩)).2
      = Except.ok ⟨⟨1⟩, "B", locB⟩ :=
  (sequential_ids_below_u32
    [RepoOp.createP (fun id => ⟨id, "A", locA⟩), RepoOp.removeP ⟨0⟩]
    alice (fun id => ⟨id, "B", locB⟩) (by decide)).2

/-- C3: a successful move returns and stores a person with the same id and
name and the new location, and publishes exactly one PersonMoved event with
the old and new locations — also when the new location equals the old. -/
theorem move_person_preserves_name_and_emits (s : PersonService) (p : Person)
    (L : Location) (h : s.repository.get p.id = Except.ok p) :
    (s.move_person p.id L).2 = Except.ok ⟨p.id, p.name, L⟩
    ∧ (s.move_person p.id L).1.repository.get p.id = Except.ok ⟨p.id, p.name, L⟩
    ∧ (s.move_person p.id L).1.event_sender.attempted
        = s.event_sender.attempted
          ++ [DomainEvent.person (.personMoved p.id p.location L)]
    ∧ (s.event_sender.connected = true →
        (s.move_person p.id L).1.event_sender.delivered
          = s.event_sender.delivered
            ++ [DomainEvent.person (.personMoved p.id p.location L)]) := by
  have hlt : p.id.val < s.repository.data.length :=
    ((VecRepository.get_ok_iff s.repository p.id p).mp h).1
  rw [move_ok_helper s p p.id L h]
  refine ⟨rfl, get_mk_setSlot_self s.repository.data p.id _ hlt, ?_, ?_⟩
  · exact publish_event_attempted s.event_sender _
  · intro hconn
    exact publish_event_delivered_connected s.event_sender _ hconn

/-- C3 witness: moving the stored person to its current location still
succeeds and still publishes one PersonMoved event with equal endpoints. -/
theorem move_person_preserves_name_and_emits_witness :
    (svcOne.move_person ⟨0⟩ locA).2 = Except.ok ⟨⟨0⟩, "Stationary", locA⟩
    ∧ (svcOne.move_person ⟨0⟩ locA).1.event_sender.attempted
        = [DomainEvent.person (.personMoved ⟨0⟩ locA locA)] := by
  have h := move_person_preserves_name_and_emits svcOne
    ⟨⟨0⟩, "Stationary", locA⟩ locA (by decide)
  exact ⟨h.1, h.2.2.1⟩

/-- C4: get and move on an id with no live entity fail with NotFound; a
failed move leaves the whole service state (store and channel) unchanged
and publishes nothing; a failing store update never mutates the store. -/
theorem absent_id_notfound_no_mutation (s : PersonService) (pid : PersonId)
    (L : Location) :
    ((pid.val ≥ s.repository.data.length ∨ nthSlot s.repository.data pid.val = none) →
        s.get_person pid = Except.error VecRepositoryError.NotFound
        ∧ (s.move_person pid L).2 = Except.error VecRepositoryError.NotFound)
    ∧ (∀ e, (s.move_person pid L).2 = Except.error e → (s.move_person pid L).1 = s)
    ∧ (∀ (q : Person) (e : VecRepositoryError),
        (s.repository.update pid q).2 = Except.error e →
          (s.repository.update pid q).1 = s.repository) := by
  refine ⟨?_, ?_, ?_⟩
  · intro habsent
    have hget : s.repository.get pid = Except.error VecRepositoryError.NotFound :=
      (VecRepository.get_error_iff s.repository pid _).mpr ⟨rfl, habsent⟩
    refine ⟨hget, ?_⟩
    simp only [PersonService.move_person, hget]
  · intro e he
    cases hget : s.repository.get pid with
    | error e2 =>
      simp only [PersonService.move_person, hget]
    | ok cur =>
      have hupd := VecRepository.update_of_get_ok s.repository pid cur
        ⟨pid, cur.name, L⟩ hget
      simp only [PersonService.move_person, hget, hupd] at he
      cases he
  · intro q e he
    exact VecRepository.update_error_unchanged s.repository pid q e he

/-- C4 witness: id 5 was never issued by the one-person service, so get and
move fail with NotFound and the failed move changes nothing. -/
theorem absent_id_notfound_no_mutation_witness :
    svcOne.get_person ⟨5⟩ = Except.error VecRepositoryError.NotFound
    ∧ (svcOne.move_person ⟨5⟩ locB).1 = svcOne := by
  have h := absent_id_notfound_no_mutation svcOne ⟨5⟩ locB
  exact ⟨(h.1 (by decide)).1, h.2.1 VecRepositoryError.NotFound (by decide)⟩

/-- C5: with the event channel's consumer gone, create and move still
return Ok with the created or updated person, the store mutation commits,
and the lost delivery is silently swallowed. -/
theorem closed_channel_commands_still_succeed (s : PersonService) (name : String)
    (loc : Location) (pid : PersonId) (L : Location) (p : Person)
    (hconn : s.event_sender.connected = false)
    (hget : s.repository.get pid = Except.ok p) :
    (∃ pr : Person, (s.create_person name loc).2 = Except.ok pr
        ∧ pr.name = name ∧ pr.location = loc)
    ∧ (s.create_person name loc).1.repository.data.length
        = s.repository.data.length + 1
    ∧ (s.create_person name loc).1.event_sender.delivered = s.event_sender.delivered
    ∧ (s.move_person pid L).2 = Except.ok ⟨pid, p.name, L⟩
    ∧ (s.move_person pid L).1.repository.get pid = Except.ok ⟨pid, p.name, L⟩
    ∧ (s.move_person pid L).1.event_sender.delivered = s.event_sender.delivered := by
  have hlt : pid.val < s.repository.data.length :=
    ((VecRepository.get_ok_iff s.repository pid p).mp hget).1
  rw [create_person_eq s name loc, move_ok_helper s p pid L hget]
  refine ⟨⟨_, rfl, rfl, rfl⟩, by simp, ?_, rfl,
    get_mk_setSlot_self s.repository.data pid _ hlt, ?_⟩
  · exact publish_event_delivered_closed s.event_sender _ hconn
  · exact publish_event_delivered_closed s.event_sender _ hconn

/-- C5 witness: on a service with a closed channel, move returns Ok with the
updated person and a create delivers nothing, losing no command. -/
theorem closed_channel_commands_still_succeed_witness :
    (svcClosed.move_person ⟨0⟩ locB).2 = Except.ok ⟨⟨0⟩, "Undelivered", locB⟩
    ∧ (svcClosed.create_person "New" locC).1.event_sender.delivered = [] := by
  have h := closed_channel_commands_still_succeed svcClosed "New" locC ⟨0⟩ locB
    ⟨⟨0⟩, "Undelivered", locA⟩ (by decide) (by decide)
  exact ⟨h.2.2.2.1, h.2.2.1⟩

/-- C6: each pass of the processing loop appends the received events to the
end of the log in arrival order; a subscriber whose consumer never goes
away stays registered and its feed is extended by exactly the log's new
events, in log order; and a send fails (dropping the subscriber) exactly
when its consumer is gone. -/
theorem event_store_appends_and_fans_out (st : EventStoreState)
    (es : List DomainEvent) :
    (processEvents st es).events = st.events ++ es
    ∧ (∀ s ∈ st.subscribers, s.fuel = none →
        Subscriber.mk none
            (s.feed ++ List.drop st.events.length (processEvents st es).events)
          ∈ (processEvents st es).subscribers)
    ∧ (∀ s ∈ st.subscribers, ∀ k : Nat, s.fuel = some k → es.length ≤ k →
        Subscriber.mk (some (k - es.length)) (s.feed ++ es)
          ∈ (processEvents st es).subscribers)
    ∧ (∀ (s : Subscriber) (e : DomainEvent), s.send e = none ↔ s.fuel = some 0) := by
  refine ⟨processEvents_events st es, ?_,
    fun s hs k hf hk => processEvents_finite_fuel es st s k hs hf hk,
    fun s e => Subscriber.send_eq_none_iff s e⟩
  intro s hs hf
  have hdrop : List.drop st.events.length (processEvents st es).events = es := by
    rw [processEvents_events st es]
    simp
  rw [hdrop]
  exact processEvents_immortal st es s hs hf

/-- C6 witness: processing two events appends both to the log and delivers
both, in order, to the subscriber that stays alive. -/
theorem event_store_appends_and_fans_out_witness :
    Subscriber.mk none
        [DomainEvent.person (.personCreated ⟨0⟩ "x" locA),
         DomainEvent.person (.personMoved ⟨0⟩ locA locB)]
      ∈ (processEvents
          ⟨[], [⟨none, []⟩, ⟨some 0, []⟩]⟩
          [DomainEvent.person (.personCreated ⟨0⟩ "x" locA),
           DomainEvent.person (.personMoved ⟨0⟩ locA locB)]).subscribers := by
  have h := event_store_appends_and_fans_out
    ⟨[], [⟨none, []⟩, ⟨some 0, []⟩]⟩
    [DomainEvent.person (.personCreated ⟨0⟩ "x" locA),
     DomainEvent.person (.personMoved ⟨0⟩ locA locB)]
  have hres := h.2.1 ⟨none, []⟩ (by decide) rfl
  exact hres

/-- C7: in every projection state reachable by applying any event sequence
to the empty projection, the occupied locations are exactly the locations
with a non-empty occupant list, they are listed without duplicates, and
the occupied-location count is their number. -/
theorem occupied_locations_never_empty (es : List DomainEvent) :
    (∀ L ∈ get_occupied_locations (applyAll [] es),
        get_people_at_location (applyAll [] es) L ≠ [])
    ∧ (∀ L : Location, get_people_at_location (applyAll [] es) L ≠ [] →
        L ∈ get_occupied_locations (applyAll [] es))
    ∧ (get_occupied_locations (applyAll [] es)).Nodup
    ∧ get_occupied_location_count (applyAll [] es)
        = (get_occupied_locations (applyAll [] es)).length := by
  have hwf := occWf_applyAll [] es occWf_empty
  refine ⟨fun L hL => people_at_ne_nil_of_mem_keys (applyAll [] es) hwf L hL,
    fun L hL => mem_keys_of_people_at_ne_nil (applyAll [] es) L hL,
    hwf.1, ?_⟩
  simp [get_occupied_location_count, get_occupied_locations]

/-- C7 witness: after the end-to-end scenario both occupied locations hold
someone; (10,20) is occupied and non-empty. -/
theorem occupied_locations_never_empty_witness :
    get_people_at_location (applyAll [] esScenario) locA ≠ [] :=
  (occupied_locations_never_empty esScenario).1 locA (by decide)

/-- C8: the most crowded location is `none` exactly when no location is
occupied; otherwise it is an occupied location paired with its occupant
count, and no location has more occupants. -/
theorem most_crowded_is_maximum (es : List DomainEvent) :
    (get_most_crowded_location (applyAll [] es) = none ↔
        ∀ L : Location, get_people_at_location (applyAll [] es) L = [])
    ∧ (∀ (L : Location) (c : Nat),
        get_most_crowded_location (applyAll [] es) = some (L, c) →
          (get_people_at_location (applyAll [] es) L).length = c
          ∧ ∀ L' : Location,
              (get_people_at_location (applyAll [] es) L').length ≤ c) := by
  have hwf := occWf_applyAll [] es occWf_empty
  constructor
  · constructor
    · intro hnone L
      have hempty := (get_most_crowded_none_iff (applyAll [] es)).mp hnone
      rw [hempty]
      rfl
    · intro hall
      rcases hm : get_most_crowded_location (applyAll [] es) with _ | lc
      · rfl
      · obtain ⟨⟨ps, hmem, hlen⟩, hbound⟩ :=
          get_most_crowded_spec (applyAll [] es) lc.1 lc.2 (by rw [hm])
        have hlook := lookupOcc_of_mem_nodup (applyAll [] es) lc.1 ps hwf.1 hmem
        have hps : get_people_at_location (applyAll [] es) lc.1 = ps := by
          simp [get_people_at_location, hlook]
        have hnil := hall lc.1
        rw [hps] at hnil
        exact absurd hnil (hwf.2 (lc.1, ps) hmem)
  · intro L c hm
    obtain ⟨⟨ps, hmem, hlen⟩, hbound⟩ :=
      get_most_crowded_spec (applyAll [] es) L c hm
    have hlook := lookupOcc_of_mem_nodup (applyAll [] es) L ps hwf.1 hmem
    refine ⟨by simp [get_people_at_location, hlook, hlen], ?_⟩
    intro L2
    rcases ho : lookupOcc (applyAll [] es) L2 with _ | v
    · simp [get_people_at_location, ho]
    · have hv := hbound (L2, v) (mem_of_lookupOcc (applyAll [] es) L2 v ho)
      simpa [get_people_at_location, ho] using hv

/-- C8 witness: with occupancy counts A:1, B:3, C:2 the most crowded
location is B with count 3, which matches the occupant list length. -/
theorem most_crowded_is_maximum_witness :
    get_most_crowded_location (applyAll [] esCrowd) = some (locB, 3)
    ∧ (get_people_at_location (applyAll [] esCrowd) locB).length = 3 :=
  ⟨by decide, ((most_crowded_is_maximum esCrowd).2 locB 3 (by decide)).1⟩

/-- C9: the InvalidIndex variant is unreachable: get, remove and update
fail only with NotFound (also for ids at or past the store length), and
add, create, get_all, service create and service list always succeed. -/
theorem invalid_index_unreachable (r : VecRepository Person) (pid : PersonId)
    (p : Person) (f : PersonId → Person) (q : Person) (s : PersonService)
    (name : String) (loc : Location) :
    (∀ e, r.get pid = Except.error e → e = VecRepositoryError.NotFound)
    ∧ (∀ e, (r.remove pid).2 = Except.error e → e = VecRepositoryError.NotFound)
    ∧ (∀ e, (r.update pid q).2 = Except.error e → e = VecRepositoryError.NotFound)
    ∧ (∃ i, (r.add p).2 = Except.ok i)
    ∧ (∃ x, (r.create f).2 = Except.ok x)
    ∧ (∃ xs, r.get_all = Except.ok xs)
    ∧ (∃ pr, (s.create_person name loc).2 = Except.ok pr)
    ∧ (∃ ps, s.get_all_persons = Except.ok ps) := by
  refine ⟨?_, ?_, ?_, ⟨_, rfl⟩, ⟨_, rfl⟩, ⟨_, rfl⟩, ?_, ⟨_, rfl⟩⟩
  · intro e he
    exact ((VecRepository.get_error_iff r pid e).mp he).1
  · intro e he
    exact VecRepository.remove_error_notfound r pid e he
  · intro e he
    exact ((VecRepository.get_error_iff r pid e).mp
      ((VecRepository.update_error_iff_get_error r pid q e).mp he)).1
  · rw [create_person_eq s name loc]
    exact ⟨_, rfl⟩

/-- C9 witness: on an empty store, get of id 0 fails with NotFound, never
InvalidIndex. -/
theorem invalid_index_unreachable_witness :
    VecRepositoryError.NotFound = VecRepositoryError.NotFound
    ∧ (VecRepository.new.get ⟨0⟩ : Except VecRepositoryError Person)
        = Except.error VecRepositoryError.NotFound :=
  ⟨(invalid_index_unreachable VecRepository.new ⟨0⟩ alice
      (fun id => ⟨id, "F", locA⟩) alice svcOne "G" locB).1
        VecRepositoryError.NotFound (by decide),
   by decide⟩

/-- C10: updating or moving one person changes no other id's lookup, keeps
the store length, and keeps the id the next add would allocate. -/
theorem move_update_frame (s : PersonService) (pid pid2 : PersonId) (L : Location)
    (q : Person) (h : pid2 ≠ pid) :
    (s.repository.update pid q).1.get pid2 = s.repository.get pid2
    ∧ (s.repository.update pid q).1.data.length = s.repository.data.length
    ∧ (s.move_person pid L).1.repository.get pid2 = s.repository.get pid2
    ∧ (s.move_person pid L).1.repository.data.length = s.repository.data.length
    ∧ ((s.move_person pid L).1.repository.add q).2 = (s.repository.add q).2 := by
  have hval : pid2.val ≠ pid.val := by
    intro hc
    apply h
    cases pid2
    cases pid
    cases hc
    rfl
  have hupdate : (s.repository.update pid q).1.get pid2 = s.repository.get pid2 := by
    rcases VecRepository.update_cases s.repository pid q with hc | ⟨old, _, hc⟩
    · rw [hc]
    · rw [hc]
      exact get_mk_setSlot_ne s.repository.data pid.val (some q) pid2 hval
  have hmove : (s.move_person pid L).1.repository.get pid2 = s.repository.get pid2
      ∧ (s.move_person pid L).1.repository.data.length = s.repository.data.length := by
    cases hget : s.repository.get pid with
    | error e =>
      simp [PersonService.move_person, hget]
    | ok cur =>
      rw [move_ok_helper s cur pid L hget]
      exact ⟨get_mk_setSlot_ne s.repository.data pid.val _ pid2 hval,
        setSlot_length s.repository.data pid.val _⟩
  refine ⟨hupdate, VecRepository.update_length s.repository pid q, hmove.1, hmove.2, ?_⟩
  simp only [VecRepository.add, hmove.2]

/-- C10 witness: on a two-person store, moving person 0 leaves person 1's
lookup unchanged. -/
theorem move_update_frame_witness :
    ((PersonService.mk ⟨[some ⟨⟨0⟩, "A", locA⟩, some ⟨⟨1⟩, "B", locB⟩]⟩
        ⟨true, [], []⟩).move_person ⟨0⟩ locC).1.repository.get ⟨1⟩
      = (PersonService.mk ⟨[some ⟨⟨0⟩, "A", locA⟩, some ⟨⟨1⟩, "B", locB⟩]⟩
          ⟨true, [], []⟩).repository.get ⟨1⟩ :=
  (move_update_frame
    (PersonService.mk ⟨[some ⟨⟨0⟩, "A", locA⟩, some ⟨⟨1⟩, "B", locB⟩]⟩ ⟨true, [], []⟩)
    ⟨0⟩ ⟨1⟩ locC alice (by decide)).2.2.1

